import Mathlib

/-!
Shallow embedding of the memory subsystem of the `ai-helper` repository:
`semantic_memory_store.py` (long-term semantic store) and
`integrated_memory_system.py` (relevance classifier, session consolidation,
category detection).

Modelling conventions:
* Embedding vectors are `List ℚ` (the Python code uses float vectors from an
  external sentence-transformer model; the model itself is an external
  collaborator and is passed in as a function argument `encode`).
* IEEE float division by zero inside `np.dot(a,b)/(norm(a)*norm(b))` yields
  `nan` (numpy emits a RuntimeWarning but raises no exception; when a norm is
  0 the dot product is 0 too, so the quotient is 0.0/0.0 = nan).  Every
  comparison with nan is false.  We model the *comparison* `cos(a,b) >= t`
  (resp. `> t`) as a Bool which is `false` whenever either squared norm is 0,
  and otherwise decides the real inequality by sign analysis and squaring so
  that it stays rational and computable.  The bridge lemmas `simGE_iff` /
  `simGT_iff` below prove these Booleans equivalent to the corresponding
  inequalities on the real-valued cosine `cosSimR`.
* The sqlite layer is abstracted to a list of `Memory` records plus an
  autoincrement counter; `_get_connection` commits only after the managed
  block finishes, so an exception inside the block means the connection is
  closed without commit and sqlite rolls the whole transaction back.  This is
  reflected in `batchStoreMemories` returning the unchanged store on failure.
* The read path of `search_memories` never reaches its similarity code:
  `row_factory` is never set, so cursor rows are tuples and
  `row['embedding']` raises `TypeError` on the first candidate row (and
  `np.frombuffer`'s default float64 dtype would misread the float32 blob
  anyway).  `searchMemories` models this faithfully (`none` = raised);
  `searchRanked` separately models the intended, unreachable
  filter/sort/truncate pipeline that the docstring and spec describe.
* Fallible calls into the embedding model are `encode : String → Option (List ℚ)`
  on the store paths (`none` models a raised exception, which the Python code
  does not catch).
-/

namespace AiHelper

/-- `chrLeads pat l` is true when `pat` is an initial run of `l`
(character-list version of prefix testing, used for substring search). -/
def chrLeads : List Char → List Char → Bool
  | [], _ => true
  | _ :: _, [] => false
  | p :: ps, c :: cs => p == c && chrLeads ps cs

/-- `chrHas pat l` is true when `pat` occurs contiguously somewhere in `l`. -/
def chrHas (pat : List Char) : List Char → Bool
  | [] => chrLeads pat []
  | c :: cs => chrLeads pat (c :: cs) || chrHas pat cs

/-- `strHas s pat`: does `s` contain `pat` as a substring?  Models Python
`re.search(pat, s)` for a pattern that is a plain literal. -/
def strHas (s pat : String) : Bool := chrHas pat.data s.data

/-- Models Python `re.search(r"^pat$", s)` (no MULTILINE) for a literal `pat`:
`^` anchors at the start of the string and `$` at the end or just before one
trailing newline. -/
def anchoredEq (s pat : String) : Bool := s == pat || s == pat ++ "\n"

/-- ASCII lowercasing, models Python `str.lower()` / the `(?i)` flag
(equivalent to `String.toLower`, stated over the character list so that it
evaluates by kernel reduction). -/
def lowerStr (s : String) : String := String.mk (s.data.map Char.toLower)

/-- Dot product of two rational vectors, models `np.dot` (numpy truncates to
the common length only when shapes broadcast; the code always compares
vectors produced by the same model, `List.zipWith` matches that use). -/
def dotQ (a b : List ℚ) : ℚ := (List.zipWith (· * ·) a b).sum

/-- Squared Euclidean norm: `np.linalg.norm(a) ** 2 = dotQ a a`. -/
def normSq (a : List ℚ) : ℚ := dotQ a a

/-- The real-valued cosine similarity `np.dot(a,b)/(norm(a)*norm(b))` that the
Python code computes (meaningful when both norms are nonzero; when a norm is
0 the float code produces nan, modelled separately by `simGE` / `simGT`). -/
noncomputable def cosSimR (a b : List ℚ) : ℝ :=
  (dotQ a b : ℝ) / (Real.sqrt (normSq a) * Real.sqrt (normSq b))

/-- Boolean model of the float comparison `cos(a,b) >= t` as evaluated by the
code: false when either norm is 0 (the quotient is nan and nan fails every
comparison), otherwise equivalent to `t ≤ cosSimR a b` (see `simGE_iff`). -/
def simGE (a b : List ℚ) (t : ℚ) : Bool :=
  !(normSq a == 0) && !(normSq b == 0) &&
    (if 0 ≤ dotQ a b then
       decide (t ≤ 0) || decide (t ^ 2 * (normSq a * normSq b) ≤ dotQ a b ^ 2)
     else
       decide (t ≤ 0) && decide (dotQ a b ^ 2 ≤ t ^ 2 * (normSq a * normSq b)))

/-- Boolean model of the float comparison `cos(a,b) > t`, with the same nan
convention as `simGE` (see `simGT_iff`). -/
def simGT (a b : List ℚ) (t : ℚ) : Bool :=
  !(normSq a == 0) && !(normSq b == 0) &&
    (if 0 ≤ dotQ a b then
       decide (t < 0) || decide (t ^ 2 * (normSq a * normSq b) < dotQ a b ^ 2)
     else
       decide (t < 0) && decide (dotQ a b ^ 2 < t ^ 2 * (normSq a * normSq b)))

/-- Rational sort key that is strictly monotone in the cosine similarity
`d / (sqrt nq * sqrt n)` for fixed query norm `nq > 0` and candidate norm
`n > 0` (the signed square of the candidate-side similarity; see
`simKey_le_iff`).  Sorting by this key descending models the Python
`results.sort(key=lambda x: x['relevance'], reverse=True)`. -/
def simKey (d n : ℚ) : ℚ := if 0 ≤ d then d ^ 2 / n else -(d ^ 2) / n

/-- A row of the `memories` table of `semantic_memory_store.py`. -/
structure Memory where
  id : ℕ
  content : String
  category : String
  timestamp : ℚ
  metadata : List (String × String)
  confidence : ℚ
  embedding : List ℚ
deriving DecidableEq, Repr

/-- Descending comparison on the similarity to the query `q`, via the
monotone rational key `simKey`. -/
abbrev srGE (q : List ℚ) (m1 m2 : Memory) : Prop :=
  simKey (dotQ q m2.embedding) (normSq m2.embedding) ≤
    simKey (dotQ q m1.embedding) (normSq m1.embedding)

instance (q : List ℚ) : DecidableRel (srGE q) := fun _ _ =>
  inferInstanceAs (Decidable (_ ≤ _))

instance (q : List ℚ) : IsTotal Memory (srGE q) :=
  ⟨fun _ _ => le_total _ _⟩

instance (q : List ℚ) : IsTrans Memory (srGE q) :=
  ⟨fun _ _ _ h1 h2 => le_trans h2 h1⟩

/-- The candidate pre-selection of `SemanticMemoryStore.search_memories`
(lines 81-86): rows of the requested category, or all rows when no category
is given; Python `if category:` is false for the empty string, so
`category=""` also means no filter. -/
def searchCandidates (ms : List Memory) (category : Option String) :
    List Memory :=
  match category with
  | some c => if c = "" then ms else ms.filter (fun m => m.category == c)
  | none => ms

/-- The ranking pipeline that the body of the `search_memories` scan loop
(lines 88-112) spells out — category pre-filter, keep candidates whose
cosine similarity to the query is `>= min_similarity`, sort descending by
similarity, truncate to `limit` — under the idealization that the row read
yields the stored embedding.  The loop as it actually executes never gets
that far (see `searchMemories` below); this definition captures the
intended behaviour that the function's docstring ("Returns memories ordered
by relevance") and the spec promise.  `q` is the already-encoded query
embedding (`self.model.encode(query)`). -/
def searchRanked (q : List ℚ) (ms : List Memory) (limit : ℕ) (minSim : ℚ)
    (category : Option String) : List Memory :=
  (List.insertionSort (srGE q)
    ((searchCandidates ms category).filter (fun m => simGE q m.embedding minSim))).take
    limit

/-- `SemanticMemoryStore.search_memories`, lines 71-112, as it actually
executes: the SQL candidate selection succeeds, but the scan loop's first
action on each row is `np.frombuffer(row['embedding'])`, and the cursor
yields plain tuples — `row_factory` is never set anywhere in the class — so
indexing a row with a string raises `TypeError` on the first candidate row
(and even with keyed rows, `np.frombuffer`'s default float64 dtype would
misread the float32 blob written by `store_memory`).  The function
therefore returns the empty list when there are no candidate rows and
raises — modelled by `none` — otherwise; the filter/sort/truncate code
below the row read (modelled by `searchRanked`) is unreachable. -/
def searchMemories (q : List ℚ) (ms : List Memory) (limit : ℕ) (minSim : ℚ)
    (category : Option String) : Option (List Memory) :=
  match searchCandidates ms category with
  | [] => some []
  | _ :: _ => none

/-- The persistent store: rows plus sqlite's AUTOINCREMENT counter. -/
structure MemoryDB where
  rows : List Memory
  nextId : ℕ
deriving DecidableEq, Repr

/-- `SemanticMemoryStore.store_memory`, lines 48-69: encode the content,
insert one row, return its id.  `encode content = none` models an exception
raised by `self.model.encode`, which the function does not catch: nothing is
inserted and no id is returned. -/
def storeMemory (encode : String → Option (List ℚ)) (db : MemoryDB)
    (content : String) (category : String) (metadata : List (String × String))
    (confidence : ℚ) (now : ℚ) : MemoryDB × Option ℕ :=
  match encode content with
  | none => (db, none)
  | some emb =>
      (⟨db.rows ++ [⟨db.nextId, content, category, now, metadata, confidence, emb⟩],
        db.nextId + 1⟩, some db.nextId)

/-- One element of the list handed to `batch_store_memories` (a Python dict;
`.get` defaults are applied at insert time). -/
structure BatchSpec where
  content : String
  category : Option String
  metadata : List (String × String)
  confidence : Option ℚ
deriving DecidableEq, Repr

/-- The insert loop of `batch_store_memories`: all inserts happen on one
connection.  `none` models an exception on some item (e.g. the model raising
on `encode`); in that case `_get_connection` (lines 38-46) never reaches
`conn.commit()`, the connection is closed and sqlite rolls back every insert
of the transaction. -/
def batchInsertFrom (encode : String → Option (List ℚ)) (now : ℚ) :
    ℕ → List BatchSpec → Option (List Memory × List ℕ)
  | _, [] => some ([], [])
  | nextId, spec :: rest =>
      match encode spec.content with
      | none => none
      | some emb =>
          match batchInsertFrom encode now (nextId + 1) rest with
          | none => none
          | some (rows, ids) =>
              some (⟨nextId, spec.content, spec.category.getD "general", now,
                     spec.metadata, spec.confidence.getD 1, emb⟩ :: rows,
                    nextId :: ids)

/-- `SemanticMemoryStore.batch_store_memories`, lines 133-151: store every
item on a single connection; the commit happens only when the whole loop
succeeds, so a failure on item `k` leaves the store unchanged (items `< k`
are rolled back) and the caller gets no ids (the exception propagates before
`return ids`). -/
def batchStoreMemories (encode : String → Option (List ℚ)) (db : MemoryDB)
    (specs : List BatchSpec) (now : ℚ) : MemoryDB × Option (List ℕ) :=
  match batchInsertFrom encode now db.nextId specs with
  | none => (db, none)
  | some (rows, ids) => (⟨db.rows ++ rows, db.nextId + specs.length⟩, some ids)

/-- The `critical_patterns` list of `_detect_relevance` (lines 101-112).  Each
is `(?i)` + a literal, i.e. a case-insensitive substring test; we lowercase
the text and keep the patterns lowercase. -/
def criticalPatterns : List String :=
  ["remember this", "important", "don\x27t forget", "always", "never",
   "must", "prefer", "allerg", "call me", "my name"]

/-- The `ignore_patterns` list of `_detect_relevance` (lines 119-125), each of
the shape `(?i)^word$`; `^thanks?$` is the two alternatives
`thanks` / `thank`. -/
def ignorePatterns : List String :=
  ["hi", "hello", "thanks", "thank", "okay", "bye"]

/-- The `important_topics` list of `_detect_relevance` (lines 133-136). -/
def importantTopics : List String :=
  ["preference", "fact", "information", "detail",
   "remember", "important", "specific", "personal"]

/-- Relevance constants of the `Relevance` dataclass. -/
def CRITICAL : ℚ := 1
/-- Relevance 0.8. -/
def HIGH : ℚ := 4 / 5
/-- Relevance 0.5. -/
def MEDIUM : ℚ := 1 / 2
/-- Relevance 0.2. -/
def LOW : ℚ := 1 / 5
/-- Relevance 0.0. -/
def IGNORE : ℚ := 0

/-- Stage 1 of `_detect_relevance`: does some critical pattern occur in the
combined text (case-insensitively)? -/
def criticalHit (combined : String) : Bool :=
  criticalPatterns.any (fun p => strHas (lowerStr combined) p)

/-- Stage 2 of `_detect_relevance`: does some anchored ignore pattern match
the combined text (case-insensitively)? -/
def ignoreHit (combined : String) : Bool :=
  ignorePatterns.any (fun p => anchoredEq (lowerStr combined) p)

/-- Stage 3 of `_detect_relevance` (lines 131-153) compares
`np.max(similarities)` against thresholds.  `np.max` propagates nan, so if
any single similarity is nan (a zero norm somewhere) both threshold
comparisons are false; this Bool is the "no nan anywhere" condition. -/
def relevanceDefined (encode : String → List ℚ) (combined : String) : Bool :=
  !(normSq (encode combined) == 0) &&
    (importantTopics.map encode).all (fun tE => !(normSq tE == 0))

/-- The threshold mapping of stage 3 (`max_similarity > 0.8 → HIGH`,
`> 0.6 → MEDIUM`, else `LOW`); `relevanceDefined` is the nan-propagation of
`np.max` and `simGT` carries its own norm guards. -/
def relevanceFallback (encode : String → List ℚ) (combined : String) : ℚ :=
  if relevanceDefined encode combined &&
      (importantTopics.map encode).any
        (fun tE => simGT tE (encode combined) (4 / 5)) then HIGH
  else if relevanceDefined encode combined &&
      (importantTopics.map encode).any
        (fun tE => simGT tE (encode combined) (3 / 5)) then MEDIUM
  else LOW

/-- `IntegratedMemorySystem._detect_relevance`, lines 93-153: combined text is
`f"{user_message} {assistant_response}"`; critical patterns short-circuit to
CRITICAL, then ignore patterns to IGNORE, then the embedding fallback. -/
def detectRelevance (encode : String → List ℚ) (user assistant : String) : ℚ :=
  let combined := user ++ " " ++ assistant
  if criticalHit combined then CRITICAL
  else if ignoreHit combined then IGNORE
  else relevanceFallback encode combined

/-- The ordered `category_patterns` table of `_detect_category`
(lines 267-273); Python dicts preserve insertion order. -/
def categoryPatterns : List (String × List String) :=
  [("preferences", ["prefer", "like", "enjoy", "rather", "instead"]),
   ("personal", ["name", "age", "live", "family", "job", "work"]),
   ("health", ["allerg", "health", "medical", "condition", "medication"]),
   ("skills", ["can", "know how", "able to", "experience", "skilled"]),
   ("facts", ["fact", "true", "always", "never", "must"])]

/-- Number of patterns of one category that occur in `text` (each matching
pattern increments the counter once, regardless of multiplicity). -/
def hitCount (text : String) (pats : List String) : ℕ :=
  (pats.filter (fun p => strHas text p)).length

/-- First maximum of a list of `(label, count)` pairs: Python's
`Counter.most_common(1)` delegates to `heapq.nlargest(1, ...)` which is
`max(...)`, and `max` keeps the first of equal elements (replacement happens
only on a strictly greater count). -/
def argmaxFirst : List (String × ℕ) → Option (String × ℕ)
  | [] => none
  | x :: xs => some (xs.foldl (fun best y => if best.2 < y.2 then y else best) x)

/-- The per-category hit counts of `_detect_category`, in the fixed table
order, over the lowercased space-joined content. -/
def categoryCounts (contentList : List String) : List (String × ℕ) :=
  categoryPatterns.map (fun cp =>
    (cp.1, hitCount (lowerStr (String.intercalate " " contentList)) cp.2))

/-- `IntegratedMemorySystem._detect_category`, lines 261-284: join the content
list with spaces, lowercase, count pattern hits per category in the fixed
order, return the first category with the most hits, `"general"` when no
pattern hits at all (the `Counter` holds only categories whose count was
incremented, in first-increment order, which is the table order, and
`most_common(1)` keeps the first of equally-counted entries). -/
def detectCategory (contentList : List String) : String :=
  match argmaxFirst ((categoryCounts contentList).filter (fun cp => 0 < cp.2)) with
  | some w => w.1
  | none => "general"

/-- One short-term interaction as stored in Redis (the fields the
consolidation path reads). -/
structure Interaction where
  timestamp : ℚ
  relevance : ℚ
  user_message : String
  assistant_response : String
  metadata : List (String × String)
deriving DecidableEq, Repr

/-- Default used with `List.getD`; the consolidation code only indexes inside
bounds, so this value is never actually selected. -/
def dIa : Interaction := ⟨0, 0, "", "", []⟩

/-- The text whose embedding drives clustering:
`f"{interaction['user_message']} {interaction['assistant_response']}"`. -/
def combinedText (ia : Interaction) : String :=
  ia.user_message ++ " " ++ ia.assistant_response

/-- One rendered turn of the combined memory content:
`f"User: {...}\nAssistant: {...}"`. -/
def renderTurn (ia : Interaction) : String :=
  "User: " ++ ia.user_message ++ "\n" ++ "Assistant: " ++ ia.assistant_response

/-- The `related_indices` set built for seed `i` in
`_combine_related_interactions` (lines 219-238): `i` itself plus every other
not-yet-processed index whose embedding similarity to the seed's exceeds 0.8.
CPython iterates a set of small ints in increasing order, which the
`List.range`-filter produces directly. -/
def clusterOf (encode : String → List ℚ) (ias : List Interaction)
    (processed : List ℕ) (i : ℕ) : List ℕ :=
  (List.range ias.length).filter (fun j =>
    j == i ||
      (!(j == i) && !(processed.contains j) &&
        simGT (encode (combinedText (ias.getD i dIa)))
          (encode (combinedText (ias.getD j dIa))) (4 / 5)))

/-- `max(interactions[i]['relevance'] for i in related_indices)`; the index
set is never empty (it contains the seed), so the `0` default is never
selected. -/
def maxRelOver (ias : List Interaction) (idxs : List ℕ) : ℚ :=
  match idxs.map (fun j => (ias.getD j dIa).relevance) with
  | [] => 0
  | r :: rs => rs.foldl max r

/-- The dict appended to `memories` for one cluster (lines 252-257). -/
structure MemSpec where
  content : String
  category : String
  relevance : ℚ
  source_indices : List ℕ
deriving DecidableEq, Repr

/-- The body of the `for i, interaction in enumerate(interactions)` loop of
`_combine_related_interactions` (lines 211-257), acting on the accumulator
`(memories, processed_indices)`. -/
def combineStep (encode : String → List ℚ) (ias : List Interaction)
    (acc : List MemSpec × List ℕ) (i : ℕ) : List MemSpec × List ℕ :=
  if acc.2.contains i then acc
  else if (ias.getD i dIa).relevance ≤ LOW then acc
  else
    let related := clusterOf encode ias acc.2 i
    let contentList := related.map (fun j => renderTurn (ias.getD j dIa))
    (acc.1 ++ [⟨String.intercalate "\n" contentList, detectCategory contentList,
               maxRelOver ias related, related⟩],
     acc.2 ++ related)

/-- `IntegratedMemorySystem._combine_related_interactions`, lines 204-259. -/
def combineRelated (encode : String → List ℚ) (ias : List Interaction) :
    List MemSpec :=
  ((List.range ias.length).foldl (combineStep encode ias) ([], [])).1

/-- Descending order on interaction relevance, for the
`interactions.sort(key=lambda x: x['relevance'], reverse=True)` of
`_process_session_context`. -/
abbrev iaGE (a b : Interaction) : Prop := b.relevance ≤ a.relevance

instance : DecidableRel iaGE := fun _ _ => inferInstanceAs (Decidable (_ ≤ _))

instance : IsTotal Interaction iaGE := ⟨fun _ _ => le_total _ _⟩

instance : IsTrans Interaction iaGE := ⟨fun _ _ _ h1 h2 => le_trans h2 h1⟩

/-- The arguments of one `store_memory` call emitted at session end. -/
structure SessionMemory where
  content : String
  category : String
  confidence : ℚ
  source_indices : List ℕ
deriving DecidableEq, Repr

/-- `IntegratedMemorySystem._process_session_context`, lines 179-202: sort the
session's interactions descending by relevance, cluster them, and emit one
store call per cluster with `confidence = min(1.0, relevance + 0.2)` and the
member indices recorded as `metadata['original_interactions']`. -/
def processSessionContext (encode : String → List ℚ) (ias : List Interaction) :
    List SessionMemory :=
  (combineRelated encode (List.insertionSort iaGE ias)).map (fun m =>
    ⟨m.content, m.category, min 1 (m.relevance + 1 / 5), m.source_indices⟩)

/-- Concrete session fixture used by witnesses: one interaction of relevance
0.5. -/
def iaDog : Interaction := ⟨0, 1 / 2, "I have a dog", "nice", []⟩

/-- The memory consolidated from `[iaDog]` under a constant embedding model. -/
def smDog : SessionMemory :=
  ⟨"User: I have a dog\nAssistant: nice", "general", 7 / 10, [0]⟩

/-- Modelled from the spec: the strict threshold test with a zero-norm
cosine similarity "defined as 0 (not error)", as C2's sentence reads; used
only to compare the spec's words against the code's nan behaviour. -/
def simGTZero (a b : List ℚ) (t : ℚ) : Bool :=
  if normSq a == 0 || normSq b == 0 then decide ((0 : ℚ) > t) else simGT a b t

/-- Modelled from the spec: the relevance fallback of `_detect_relevance`
under C2's reading, where every similarity is a number (zero-norm pairs
scoring 0) so `np.max` is a plain maximum and the greatest similarity
decides the threshold mapping — no nan can poison it. -/
def relevanceFallbackSpecZero (encode : String → List ℚ) (combined : String) : ℚ :=
  if (importantTopics.map encode).any
      (fun tE => simGTZero tE (encode combined) (4 / 5)) then HIGH
  else if (importantTopics.map encode).any
      (fun tE => simGTZero tE (encode combined) (3 / 5)) then MEDIUM
  else LOW

/-! ### Bridge lemmas: the Boolean comparison models vs the real cosine -/

theorem normSq_nonneg (a : List ℚ) : 0 ≤ normSq a := by
  unfold normSq dotQ
  induction a with
  | nil => simp
  | cons x xs ih =>
      simp only [List.zipWith_cons_cons, List.sum_cons]
      nlinarith [mul_self_nonneg x]

theorem normSq_pos_of_ne (a : List ℚ) (h : normSq a ≠ 0) : 0 < normSq a :=
  lt_of_le_of_ne (normSq_nonneg a) (Ne.symm h)

/-- The signed square `x * |x|` is strictly monotone on ℝ. -/
theorem sgnSq_strictMono : StrictMono (fun x : ℝ => x * |x|) := by
  intro x y hxy
  rcases le_or_lt 0 x with hx | hx
  · have hy : 0 < y := lt_of_le_of_lt hx hxy
    simp only [abs_of_nonneg hx, abs_of_pos hy]
    nlinarith
  · rcases le_or_lt 0 y with hy | hy
    · have : x * |x| < 0 := by
        simp only [abs_of_neg hx]; nlinarith
      have h2 : 0 ≤ y * |y| := by
        simp only [abs_of_nonneg hy]; nlinarith
      exact lt_of_lt_of_le this h2
    · simp only [abs_of_neg hx, abs_of_neg hy]
      nlinarith

theorem sgnSq_le_iff {x y : ℝ} : x * |x| ≤ y * |y| ↔ x ≤ y :=
  sgnSq_strictMono.le_iff_le

/-- `simGE a b t = true` exactly when both norms are nonzero and the real
cosine similarity is at least `t`; in particular a nan (zero-norm) comparison
is false, as in IEEE arithmetic. -/
theorem simGE_iff (a b : List ℚ) (t : ℚ) :
    simGE a b t = true ↔
      normSq a ≠ 0 ∧ normSq b ≠ 0 ∧ (t : ℝ) ≤ cosSimR a b := by
  unfold simGE cosSimR
  simp only [Bool.and_eq_true, Bool.not_eq_true', beq_eq_false_iff_ne, ne_eq,
    and_assoc]
  constructor
  · rintro ⟨ha, hb, hmain⟩
    refine ⟨ha, hb, ?_⟩
    have hna : (0 : ℝ) < (normSq a : ℚ) := by exact_mod_cast normSq_pos_of_ne a ha
    have hnb : (0 : ℝ) < (normSq b : ℚ) := by exact_mod_cast normSq_pos_of_ne b hb
    have hsa : (0 : ℝ) < Real.sqrt (normSq a) := Real.sqrt_pos.2 hna
    have hsb : (0 : ℝ) < Real.sqrt (normSq b) := Real.sqrt_pos.2 hnb
    have hs : (0 : ℝ) < Real.sqrt (normSq a) * Real.sqrt (normSq b) :=
      mul_pos hsa hsb
    have hs2 : (Real.sqrt (normSq a) * Real.sqrt (normSq b)) ^ 2 =
        ((normSq a : ℚ) : ℝ) * ((normSq b : ℚ) : ℝ) := by
      rw [mul_pow, Real.sq_sqrt hna.le, Real.sq_sqrt hnb.le]
    rw [le_div_iff₀ hs]
    set s : ℝ := Real.sqrt (normSq a) * Real.sqrt (normSq b)
    by_cases hd : 0 ≤ dotQ a b
    · simp only [hd, if_true, Bool.or_eq_true, decide_eq_true_eq] at hmain
      have hdR : (0 : ℝ) ≤ (dotQ a b : ℚ) := by exact_mod_cast hd
      rcases hmain with ht | hsq
      · have htR : ((t : ℚ) : ℝ) ≤ 0 := by exact_mod_cast ht
        nlinarith
      · have hsqR : ((t : ℚ) : ℝ) ^ 2 * (((normSq a : ℚ) : ℝ) * ((normSq b : ℚ) : ℝ)) ≤
            ((dotQ a b : ℚ) : ℝ) ^ 2 := by exact_mod_cast hsq
        rcases le_or_lt (((t : ℚ) : ℝ)) 0 with ht | ht
        · nlinarith
        · nlinarith [mul_pos ht hs]
    · simp only [hd, if_false, Bool.and_eq_true, decide_eq_true_eq] at hmain
      obtain ⟨ht, hsq⟩ := hmain
      have hdR : ((dotQ a b : ℚ) : ℝ) < 0 := by
        exact_mod_cast lt_of_not_le hd
      have htR : ((t : ℚ) : ℝ) ≤ 0 := by exact_mod_cast ht
      have hsqR : ((dotQ a b : ℚ) : ℝ) ^ 2 ≤
          ((t : ℚ) : ℝ) ^ 2 * (((normSq a : ℚ) : ℝ) * ((normSq b : ℚ) : ℝ)) := by
        exact_mod_cast hsq
      nlinarith [mul_nonneg (neg_nonneg.2 htR) hs.le]
  · rintro ⟨ha, hb, hcos⟩
    refine ⟨ha, hb, ?_⟩
    have hna : (0 : ℝ) < (normSq a : ℚ) := by exact_mod_cast normSq_pos_of_ne a ha
    have hnb : (0 : ℝ) < (normSq b : ℚ) := by exact_mod_cast normSq_pos_of_ne b hb
    have hsa : (0 : ℝ) < Real.sqrt (normSq a) := Real.sqrt_pos.2 hna
    have hsb : (0 : ℝ) < Real.sqrt (normSq b) := Real.sqrt_pos.2 hnb
    have hs : (0 : ℝ) < Real.sqrt (normSq a) * Real.sqrt (normSq b) :=
      mul_pos hsa hsb
    have hs2 : (Real.sqrt (normSq a) * Real.sqrt (normSq b)) ^ 2 =
        ((normSq a : ℚ) : ℝ) * ((normSq b : ℚ) : ℝ) := by
      rw [mul_pow, Real.sq_sqrt hna.le, Real.sq_sqrt hnb.le]
    rw [le_div_iff₀ hs] at hcos
    set s : ℝ := Real.sqrt (normSq a) * Real.sqrt (normSq b)
    by_cases hd : 0 ≤ dotQ a b
    · simp only [hd, if_true, Bool.or_eq_true, decide_eq_true_eq]
      have hdR : (0 : ℝ) ≤ ((dotQ a b : ℚ) : ℝ) := by exact_mod_cast hd
      rcases le_or_lt t 0 with ht | ht
      · exact Or.inl ht
      · right
        have htR : (0 : ℝ) < ((t : ℚ) : ℝ) := by exact_mod_cast ht
        have : ((t : ℚ) : ℝ) ^ 2 * (((normSq a : ℚ) : ℝ) * ((normSq b : ℚ) : ℝ)) ≤
            ((dotQ a b : ℚ) : ℝ) ^ 2 := by
          nlinarith [mul_pos htR hs]
        exact_mod_cast this
    · simp only [hd, if_false, Bool.and_eq_true, decide_eq_true_eq]
      have hdR : ((dotQ a b : ℚ) : ℝ) < 0 := by exact_mod_cast lt_of_not_le hd
      have htR : ((t : ℚ) : ℝ) ≤ 0 := by
        by_contra hpos
        push_neg at hpos
        nlinarith [mul_pos hpos hs]
      constructor
      · exact_mod_cast htR
      · have : ((dotQ a b : ℚ) : ℝ) ^ 2 ≤
            ((t : ℚ) : ℝ) ^ 2 * (((normSq a : ℚ) : ℝ) * ((normSq b : ℚ) : ℝ)) := by
          nlinarith [mul_nonneg (neg_nonneg.2 htR) hs.le]
        exact_mod_cast this

/-- `simGT a b t = true` exactly when both norms are nonzero and the real
cosine similarity exceeds `t`. -/
theorem simGT_iff (a b : List ℚ) (t : ℚ) :
    simGT a b t = true ↔
      normSq a ≠ 0 ∧ normSq b ≠ 0 ∧ (t : ℝ) < cosSimR a b := by
  unfold simGT cosSimR
  simp only [Bool.and_eq_true, Bool.not_eq_true', beq_eq_false_iff_ne, ne_eq,
    and_assoc]
  constructor
  · rintro ⟨ha, hb, hmain⟩
    refine ⟨ha, hb, ?_⟩
    have hna : (0 : ℝ) < (normSq a : ℚ) := by exact_mod_cast normSq_pos_of_ne a ha
    have hnb : (0 : ℝ) < (normSq b : ℚ) := by exact_mod_cast normSq_pos_of_ne b hb
    have hs : (0 : ℝ) < Real.sqrt (normSq a) * Real.sqrt (normSq b) :=
      mul_pos (Real.sqrt_pos.2 hna) (Real.sqrt_pos.2 hnb)
    have hs2 : (Real.sqrt (normSq a) * Real.sqrt (normSq b)) ^ 2 =
        ((normSq a : ℚ) : ℝ) * ((normSq b : ℚ) : ℝ) := by
      rw [mul_pow, Real.sq_sqrt hna.le, Real.sq_sqrt hnb.le]
    rw [lt_div_iff₀ hs]
    set s : ℝ := Real.sqrt (normSq a) * Real.sqrt (normSq b)
    by_cases hd : 0 ≤ dotQ a b
    · simp only [hd, if_true, Bool.or_eq_true, decide_eq_true_eq] at hmain
      have hdR : (0 : ℝ) ≤ ((dotQ a b : ℚ) : ℝ) := by exact_mod_cast hd
      rcases hmain with ht | hsq
      · have htR : ((t : ℚ) : ℝ) < 0 := by exact_mod_cast ht
        nlinarith
      · have hsqR : ((t : ℚ) : ℝ) ^ 2 * (((normSq a : ℚ) : ℝ) * ((normSq b : ℚ) : ℝ)) <
            ((dotQ a b : ℚ) : ℝ) ^ 2 := by exact_mod_cast hsq
        rcases lt_or_le (((t : ℚ) : ℝ)) 0 with ht | ht
        · nlinarith
        · nlinarith [mul_nonneg ht hs.le]
    · simp only [hd, if_false, Bool.and_eq_true, decide_eq_true_eq] at hmain
      obtain ⟨ht, hsq⟩ := hmain
      have hdR : ((dotQ a b : ℚ) : ℝ) < 0 := by exact_mod_cast lt_of_not_le hd
      have htR : ((t : ℚ) : ℝ) < 0 := by exact_mod_cast ht
      have hsqR : ((dotQ a b : ℚ) : ℝ) ^ 2 <
          ((t : ℚ) : ℝ) ^ 2 * (((normSq a : ℚ) : ℝ) * ((normSq b : ℚ) : ℝ)) := by
        exact_mod_cast hsq
      nlinarith [mul_pos (neg_pos.2 htR) hs]
  · rintro ⟨ha, hb, hcos⟩
    refine ⟨ha, hb, ?_⟩
    have hna : (0 : ℝ) < (normSq a : ℚ) := by exact_mod_cast normSq_pos_of_ne a ha
    have hnb : (0 : ℝ) < (normSq b : ℚ) := by exact_mod_cast normSq_pos_of_ne b hb
    have hs : (0 : ℝ) < Real.sqrt (normSq a) * Real.sqrt (normSq b) :=
      mul_pos (Real.sqrt_pos.2 hna) (Real.sqrt_pos.2 hnb)
    have hs2 : (Real.sqrt (normSq a) * Real.sqrt (normSq b)) ^ 2 =
        ((normSq a : ℚ) : ℝ) * ((normSq b : ℚ) : ℝ) := by
      rw [mul_pow, Real.sq_sqrt hna.le, Real.sq_sqrt hnb.le]
    rw [lt_div_iff₀ hs] at hcos
    set s : ℝ := Real.sqrt (normSq a) * Real.sqrt (normSq b)
    by_cases hd : 0 ≤ dotQ a b
    · simp only [hd, if_true, Bool.or_eq_true, decide_eq_true_eq]
      have hdR : (0 : ℝ) ≤ ((dotQ a b : ℚ) : ℝ) := by exact_mod_cast hd
      rcases lt_or_le t 0 with ht | ht
      · exact Or.inl ht
      · right
        have htR : (0 : ℝ) ≤ ((t : ℚ) : ℝ) := by exact_mod_cast ht
        have : ((t : ℚ) : ℝ) ^ 2 * (((normSq a : ℚ) : ℝ) * ((normSq b : ℚ) : ℝ)) <
            ((dotQ a b : ℚ) : ℝ) ^ 2 := by
          nlinarith [mul_nonneg htR hs.le]
        exact_mod_cast this
    · simp only [hd, if_false, Bool.and_eq_true, decide_eq_true_eq]
      have hdR : ((dotQ a b : ℚ) : ℝ) < 0 := by exact_mod_cast lt_of_not_le hd
      have htR : ((t : ℚ) : ℝ) < 0 := by
        by_contra hpos
        push_neg at hpos
        nlinarith [mul_nonneg hpos hs.le]
      constructor
      · exact_mod_cast htR
      · have : ((dotQ a b : ℚ) : ℝ) ^ 2 <
            ((t : ℚ) : ℝ) ^ 2 * (((normSq a : ℚ) : ℝ) * ((normSq b : ℚ) : ℝ)) := by
          nlinarith [mul_pos (neg_pos.2 htR) hs]
        exact_mod_cast this

/-- The signed square of the real cosine-style quotient equals the rational
sort key divided by the (positive) query norm. -/
theorem sgnSq_div_sqrt (d n nq : ℚ) (hq : 0 < nq) (hn : 0 < n) :
    ((d : ℝ) / (Real.sqrt nq * Real.sqrt n)) * |(d : ℝ) / (Real.sqrt nq * Real.sqrt n)| =
      ((simKey d n : ℚ) : ℝ) / ((nq : ℚ) : ℝ) := by
  have hqR : (0 : ℝ) < (nq : ℚ) := by exact_mod_cast hq
  have hnR : (0 : ℝ) < (n : ℚ) := by exact_mod_cast hn
  have hs : (0 : ℝ) < Real.sqrt nq * Real.sqrt n :=
    mul_pos (Real.sqrt_pos.2 hqR) (Real.sqrt_pos.2 hnR)
  have hs2 : (Real.sqrt nq * Real.sqrt n) ^ 2 = ((nq : ℚ) : ℝ) * ((n : ℚ) : ℝ) := by
    rw [mul_pow, Real.sq_sqrt hqR.le, Real.sq_sqrt hnR.le]
  unfold simKey
  by_cases hd : 0 ≤ d
  · have hdR : (0 : ℝ) ≤ (d : ℚ) := by exact_mod_cast hd
    have hcnn : (0 : ℝ) ≤ (d : ℚ) / (Real.sqrt nq * Real.sqrt n) :=
      div_nonneg hdR hs.le
    rw [abs_of_nonneg hcnn, if_pos hd, div_mul_div_comm, ← pow_two, ← pow_two, hs2]
    push_cast
    field_simp
    exact Or.inl (mul_comm _ _)
  · have hdR : ((d : ℚ) : ℝ) < 0 := by exact_mod_cast lt_of_not_le hd
    have hcneg : (d : ℚ) / (Real.sqrt nq * Real.sqrt n) < 0 :=
      div_neg_of_neg_of_pos hdR hs
    rw [abs_of_neg hcneg, if_neg hd]
    push_cast
    rw [mul_neg, div_mul_div_comm, ← pow_two, ← pow_two, hs2]
    field_simp
    exact Or.inl (mul_comm _ _)

/-- Sorting key bridge: for a fixed query with positive squared norm `nq`,
comparing `simKey` values is the same as comparing the real cosine-style
quotients `d / (sqrt nq * sqrt n)`. -/
theorem simKey_le_iff (nq n1 n2 d1 d2 : ℚ) (hq : 0 < nq) (h1 : 0 < n1)
    (h2 : 0 < n2) :
    simKey d1 n1 ≤ simKey d2 n2 ↔
      (d1 : ℝ) / (Real.sqrt nq * Real.sqrt n1) ≤
        (d2 : ℝ) / (Real.sqrt nq * Real.sqrt n2) := by
  have hqR : (0 : ℝ) < ((nq : ℚ) : ℝ) := by exact_mod_cast hq
  rw [← sgnSq_le_iff, sgnSq_div_sqrt d1 n1 nq hq h1, sgnSq_div_sqrt d2 n2 nq hq h2,
    div_le_div_iff_of_pos_right hqR]
  exact_mod_cast Iff.rfl

/-! ### Search (claims C1, C2) -/

theorem mem_searchCandidates {ms : List Memory} {category : Option String}
    {m : Memory} (h : m ∈ searchCandidates ms category) : m ∈ ms := by
  cases category with
  | none => exact h
  | some c =>
      by_cases hc : c = ""
      · simpa [searchCandidates, hc] using h
      · have h' : m ∈ ms.filter (fun m => m.category == c) := by
          simpa [searchCandidates, hc] using h
        exact (List.mem_filter.1 h').1

theorem searchCandidates_category {ms : List Memory} {c : String} {m : Memory}
    (hc : c ≠ "") (h : m ∈ searchCandidates ms (some c)) : m.category = c := by
  have h' : m ∈ ms.filter (fun m => m.category == c) := by
    simpa [searchCandidates, hc] using h
  simpa using (List.mem_filter.1 h').2

theorem mem_searchRanked {q : List ℚ} {ms : List Memory} {limit : ℕ}
    {minSim : ℚ} {category : Option String} {m : Memory}
    (h : m ∈ searchRanked q ms limit minSim category) :
    m ∈ searchCandidates ms category ∧ simGE q m.embedding minSim = true := by
  unfold searchRanked at h
  have h1 := List.mem_of_mem_take h
  rw [List.mem_insertionSort] at h1
  exact ⟨(List.mem_filter.1 h1).1, (List.mem_filter.1 h1).2⟩

/-- The intended ranking pipeline (the unreachable remainder of the
`search_memories` scan loop, `searchRanked`) does satisfy the search
contract: only stored memories with real cosine similarity at least
`min_similarity`, non-increasing by similarity, at most `limit` results,
restricted to a non-empty requested category.  This supports reading claim
C1 as the function's intent (its docstring promises the same), which the
actual row access defeats — see `search_memories_raises`. -/
theorem search_ranked_spec (q : List ℚ) (ms : List Memory) (limit : ℕ)
    (minSim : ℚ) (category : Option String) :
    (searchRanked q ms limit minSim category).length ≤ limit
    ∧ (∀ m ∈ searchRanked q ms limit minSim category,
        m ∈ ms ∧ (minSim : ℝ) ≤ cosSimR q m.embedding)
    ∧ (searchRanked q ms limit minSim category).Pairwise
        (fun m1 m2 => cosSimR q m2.embedding ≤ cosSimR q m1.embedding)
    ∧ (∀ c, category = some c → c ≠ "" →
        ∀ m ∈ searchRanked q ms limit minSim category, m.category = c) := by
  refine ⟨?_, ?_, ?_, ?_⟩
  · exact List.length_take_le _ _
  · intro m hm
    obtain ⟨hc, hge⟩ := mem_searchRanked hm
    exact ⟨mem_searchCandidates hc, ((simGE_iff _ _ _).1 hge).2.2⟩
  · have hsorted : List.Pairwise (srGE q)
        (searchRanked q ms limit minSim category) := by
      unfold searchRanked
      exact List.Pairwise.sublist (List.take_sublist _ _)
        (List.sorted_insertionSort (srGE q) _)
    refine hsorted.imp_of_mem ?_
    intro a b ha hb hr
    obtain ⟨_, hga⟩ := mem_searchRanked ha
    obtain ⟨_, hgb⟩ := mem_searchRanked hb
    obtain ⟨hqa, haa, _⟩ := (simGE_iff _ _ _).1 hga
    obtain ⟨_, hbb, _⟩ := (simGE_iff _ _ _).1 hgb
    have := (simKey_le_iff (normSq q) (normSq b.embedding) (normSq a.embedding)
      (dotQ q b.embedding) (dotQ q a.embedding)
      (normSq_pos_of_ne _ hqa) (normSq_pos_of_ne _ hbb)
      (normSq_pos_of_ne _ haa)).1 hr
    unfold cosSimR
    exact this
  · intro c hcat hc m hm
    subst hcat
    exact searchCandidates_category hc (mem_searchRanked hm).1

unseal Rat.add Rat.mul Rat.sub Rat.inv Rat.ofScientific in
/-- Concrete instantiation of `search_ranked_spec`: two stored memories, one
below the similarity threshold, plus the concrete evaluation of the
pipeline. -/
theorem search_ranked_spec_witness :
    ((searchRanked [1, 0]
        [⟨1, "a", "general", 0, [], 1, [1, 0]⟩, ⟨2, "b", "general", 0, [], 1, [0, 1]⟩]
        5 (1 / 2) none).length ≤ 5
    ∧ (∀ m ∈ searchRanked [1, 0]
        [⟨1, "a", "general", 0, [], 1, [1, 0]⟩, ⟨2, "b", "general", 0, [], 1, [0, 1]⟩]
        5 (1 / 2) none,
        m ∈ [⟨1, "a", "general", 0, [], 1, [1, 0]⟩, ⟨2, "b", "general", 0, [], 1, [0, 1]⟩]
        ∧ ((1 / 2 : ℚ) : ℝ) ≤ cosSimR [1, 0] m.embedding)
    ∧ (searchRanked [1, 0]
        [⟨1, "a", "general", 0, [], 1, [1, 0]⟩, ⟨2, "b", "general", 0, [], 1, [0, 1]⟩]
        5 (1 / 2) none).Pairwise
        (fun m1 m2 => cosSimR [1, 0] m2.embedding ≤ cosSimR [1, 0] m1.embedding)
    ∧ (∀ c, (none : Option String) = some c → c ≠ "" →
        ∀ m ∈ searchRanked [1, 0]
          [⟨1, "a", "general", 0, [], 1, [1, 0]⟩, ⟨2, "b", "general", 0, [], 1, [0, 1]⟩]
          5 (1 / 2) none, m.category = c))
    ∧ (searchRanked [1, 0]
        [⟨1, "a", "general", 0, [], 1, [1, 0]⟩, ⟨2, "b", "general", 0, [], 1, [0, 1]⟩]
        5 (1 / 2) none).map Memory.id = [1] :=
  ⟨search_ranked_spec [1, 0]
      [⟨1, "a", "general", 0, [], 1, [1, 0]⟩, ⟨2, "b", "general", 0, [], 1, [0, 1]⟩]
      5 (1 / 2) none, by decide⟩

/-- C1 (code-bug evidence): `search_memories` can never produce a ranked
result.  `row_factory` is never set, so the cursor's rows are tuples and
`row['embedding']` raises `TypeError` on the first candidate row (with keyed
rows, `np.frombuffer`'s default float64 dtype would still misread the
float32 blob); hence the function raises exactly when the candidate set is
nonempty (second conjunct evaluates a one-row store) and returns a list —
the empty one — only when there are no candidates.  The claim's
filter/sort/truncate contract, which the docstring also promises, is
satisfied by the unreachable remainder of the loop: see `searchRanked` and
`search_ranked_spec`. -/
theorem search_memories_raises (q : List ℚ) (ms : List Memory) (limit : ℕ)
    (minSim : ℚ) (category : Option String) :
    (searchMemories q ms limit minSim category = none
      ↔ searchCandidates ms category ≠ [])
    ∧ searchMemories [1] [⟨1, "User has a dog", "general", 0, [], 1, [1]⟩] 5 0
        none = none
    ∧ searchMemories [1] [] 5 0 none = some [] := by
  refine ⟨?_, by decide, by decide⟩
  unfold searchMemories
  cases searchCandidates ms category with
  | nil => simp
  | cons a l => simp

unseal Rat.add Rat.mul Rat.sub Rat.inv Rat.ofScientific in
/-- C2 counterexample, at a reachable similarity site: in the relevance
fallback the zero-norm similarity is nan, not 0, and `np.max` propagates the
nan.  With a model sending the topic "preference" to the zero vector and
every other text to `[1]`, the code's fallback returns LOW — the nan poisons
the maximum, so both threshold comparisons are false — whereas under the
spec's "zero-norm similarity is defined as 0" reading
(`relevanceFallbackSpecZero`) the topic "fact" still has similarity
1 > 0.8 and the fallback returns HIGH. -/
theorem cosine_zero_norm_counterexample :
    relevanceFallback (fun s => if s == "preference" then [0] else [1]) "x"
        = LOW
    ∧ relevanceFallbackSpecZero
        (fun s => if s == "preference" then [0] else [1]) "x" = HIGH
    ∧ HIGH ≠ LOW := by
  refine ⟨by decide, by decide, by decide⟩

/-- C2 amended: at the reachable similarity sites (the relevance fallback
and consolidation clustering) a zero norm raises no error, but the value is
nan rather than 0, and every comparison with nan is false: (i) both
threshold tests fail outright for a zero-norm pair, (ii) a zero-norm
candidate never joins a cluster, (iii) the fallback returns LOW when the
text embedding has zero norm, and (iv) the fallback returns LOW as soon as
any single topic embedding has zero norm, even if another topic's
similarity exceeds 0.8 — where a 0-valued definition would give HIGH (see
the counterexample).  The third site named by the claim, search, never
reaches its similarity expression at all: `search_memories` raises first
(see `search_memories_raises`). -/
theorem cosine_zero_norm_amended :
    (∀ (a b : List ℚ) (t : ℚ), normSq a = 0 ∨ normSq b = 0 →
        simGE a b t = false ∧ simGT a b t = false)
    ∧ (∀ (encode : String → List ℚ) (ias : List Interaction)
        (processed : List ℕ) (i j : ℕ), j ≠ i →
        normSq (encode (combinedText (ias.getD j dIa))) = 0 →
          j ∉ clusterOf encode ias processed i)
    ∧ (∀ (encode : String → List ℚ) (combined : String),
        normSq (encode combined) = 0 →
          relevanceFallback encode combined = LOW)
    ∧ (∀ (encode : String → List ℚ) (combined : String) (tE : List ℚ),
        tE ∈ importantTopics.map encode → normSq tE = 0 →
          relevanceFallback encode combined = LOW) := by
  refine ⟨?_, ?_, ?_, ?_⟩
  · intro a b t h
    rcases h with h | h <;> simp [simGE, simGT, h]
  · intro encode ias processed i j hji h0 hmem
    unfold clusterOf at hmem
    have hpred := (List.mem_filter.1 hmem).2
    set b := encode (combinedText (ias.getD j dIa)) with hb
    have hsim : simGT (encode (combinedText (ias.getD i dIa))) b (4 / 5)
        = false := by
      simp [simGT, h0]
    rw [hsim] at hpred
    simp [hji] at hpred
  · intro encode combined h
    simp [relevanceFallback, relevanceDefined, h]
  · intro encode combined tE htE h0
    cases hc : relevanceDefined encode combined with
    | false => simp [relevanceFallback, hc]
    | true =>
        exfalso
        unfold relevanceDefined at hc
        rw [Bool.and_eq_true] at hc
        have := List.all_eq_true.1 hc.2 tE htE
        simp [h0] at this

unseal Rat.add Rat.mul Rat.sub Rat.inv Rat.ofScientific in
/-- Witness for C2's amended theorem at concrete inputs: a zero-norm pair
failing both thresholds, a zero-norm interaction embedding kept out of a
cluster, and the fallback's two LOW cases. -/
theorem cosine_zero_norm_amended_witness :
    (simGE [(0 : ℚ)] [1] (1 / 2) = false ∧ simGT [(0 : ℚ)] [1] (1 / 2) = false)
    ∧ (1 : ℕ) ∉ clusterOf (fun s => if s == "c d" then [0] else [1])
        [⟨0, 1 / 2, "a", "b", []⟩, ⟨0, 1 / 2, "c", "d", []⟩] [] 0
    ∧ relevanceFallback (fun _ => []) "x" = LOW
    ∧ relevanceFallback (fun s => if s == "preference" then [0] else [1]) "y"
        = LOW :=
  ⟨cosine_zero_norm_amended.1 [0] [1] (1 / 2) (Or.inl (by decide)),
   cosine_zero_norm_amended.2.1 (fun s => if s == "c d" then [0] else [1])
     [⟨0, 1 / 2, "a", "b", []⟩, ⟨0, 1 / 2, "c", "d", []⟩] [] 0 1
     (by decide) (by decide),
   cosine_zero_norm_amended.2.2.1 (fun _ => []) "x" (by decide),
   cosine_zero_norm_amended.2.2.2 (fun s => if s == "preference" then [0] else [1])
     "y" [0] (by decide) (by decide)⟩


/-! ### Relevance classifier (claims C4, C5, C10) -/

theorem relevanceFallback_cases (encode : String → List ℚ) (combined : String) :
    relevanceFallback encode combined = HIGH
    ∨ relevanceFallback encode combined = MEDIUM
    ∨ relevanceFallback encode combined = LOW := by
  unfold relevanceFallback
  split
  · exact Or.inl rfl
  · split
    · exact Or.inr (Or.inl rfl)
    · exact Or.inr (Or.inr rfl)

theorem relevanceFallback_ge_LOW (encode : String → List ℚ)
    (combined : String) : LOW ≤ relevanceFallback encode combined := by
  rcases relevanceFallback_cases encode combined with h | h | h <;>
    rw [h] <;> norm_num [HIGH, MEDIUM, LOW]

/-- C5: whenever the combined text contains "remember this" or "don't
forget" (case-insensitively), the classifier returns CRITICAL from the
pattern stage; the result does not depend on the embedding model `encode` at
all, so the fallback is neither consulted nor able to override it. -/
theorem critical_pattern_short_circuit (encode : String → List ℚ)
    (user assistant : String)
    (h : strHas (lowerStr (user ++ " " ++ assistant)) "remember this" = true
       ∨ strHas (lowerStr (user ++ " " ++ assistant)) "don\x27t forget" = true) :
    detectRelevance encode user assistant = CRITICAL := by
  have hcrit : criticalHit (user ++ " " ++ assistant) = true := by
    rcases h with h | h
    · exact List.any_eq_true.2 ⟨"remember this", by decide, h⟩
    · exact List.any_eq_true.2 ⟨"don\x27t forget", by decide, h⟩
  simp [detectRelevance, hcrit]

/-- Witness for C5 at a concrete input (mixed case, arbitrary encoder). -/
theorem critical_pattern_short_circuit_witness :
    (strHas (lowerStr ("Please Remember THIS" ++ " " ++ "ok")) "remember this" = true
      ∨ strHas (lowerStr ("Please Remember THIS" ++ " " ++ "ok")) "don\x27t forget" = true)
    ∧ detectRelevance (fun _ => [42]) "Please Remember THIS" "ok" = CRITICAL :=
  ⟨Or.inl (by decide),
   critical_pattern_short_circuit (fun _ => [42]) "Please Remember THIS" "ok"
     (Or.inl (by decide))⟩

/-- C10: when neither the critical nor the ignore patterns match the
combined text, the embedding fallback decides, and it only ever returns HIGH
(0.8), MEDIUM (0.5) or LOW (0.2) — never CRITICAL and never IGNORE — so such
an interaction is always retained at relevance at least LOW. -/
theorem fallback_range (encode : String → List ℚ) (user assistant : String)
    (h1 : criticalHit (user ++ " " ++ assistant) = false)
    (h2 : ignoreHit (user ++ " " ++ assistant) = false) :
    (detectRelevance encode user assistant = HIGH
      ∨ detectRelevance encode user assistant = MEDIUM
      ∨ detectRelevance encode user assistant = LOW)
    ∧ LOW ≤ detectRelevance encode user assistant
    ∧ detectRelevance encode user assistant ≠ IGNORE
    ∧ detectRelevance encode user assistant ≠ CRITICAL := by
  have hfb : detectRelevance encode user assistant =
      relevanceFallback encode (user ++ " " ++ assistant) := by
    simp [detectRelevance, h1, h2]
  rw [hfb]
  refine ⟨relevanceFallback_cases _ _, relevanceFallback_ge_LOW _ _, ?_, ?_⟩ <;>
    rcases relevanceFallback_cases encode (user ++ " " ++ assistant) with h | h | h <;>
      rw [h] <;> norm_num [HIGH, MEDIUM, LOW, IGNORE, CRITICAL]

/-- Witness for C10 at a concrete input failing both pattern stages. -/
theorem fallback_range_witness :
    criticalHit ("what is the weather" ++ " " ++ "sunny today") = false
    ∧ ignoreHit ("what is the weather" ++ " " ++ "sunny today") = false
    ∧ ((detectRelevance (fun _ => [1]) "what is the weather" "sunny today" = HIGH
        ∨ detectRelevance (fun _ => [1]) "what is the weather" "sunny today" = MEDIUM
        ∨ detectRelevance (fun _ => [1]) "what is the weather" "sunny today" = LOW)
      ∧ LOW ≤ detectRelevance (fun _ => [1]) "what is the weather" "sunny today"
      ∧ detectRelevance (fun _ => [1]) "what is the weather" "sunny today" ≠ IGNORE
      ∧ detectRelevance (fun _ => [1]) "what is the weather" "sunny today" ≠ CRITICAL) :=
  ⟨by decide, by decide,
   fallback_range (fun _ => [1]) "what is the weather" "sunny today"
     (by decide) (by decide)⟩

/-- C4 (code-bug evidence): for the interaction ("hi", "hello") the combined
text is "hi hello"; no critical pattern occurs in it, but no ignore pattern
matches it either, because the ignore patterns are anchored (`^hi$`, ...)
and are matched against the space-joined pair, which can never equal a
single bare word.  The classifier therefore falls through to the embedding
stage and returns at least LOW (0.2) for every possible embedding model —
never IGNORE (0.0) as the spec requires. -/
theorem hi_hello_not_ignored (encode : String → List ℚ) :
    criticalHit ("hi hello") = false
    ∧ ignoreHit ("hi hello") = false
    ∧ detectRelevance encode "hi" "hello" =
        relevanceFallback encode ("hi hello")
    ∧ LOW ≤ detectRelevance encode "hi" "hello"
    ∧ detectRelevance encode "hi" "hello" ≠ IGNORE := by
  have h1 : criticalHit ("hi hello") = false := by decide
  have h2 : ignoreHit ("hi hello") = false := by decide
  have hfb : detectRelevance encode "hi" "hello" =
      relevanceFallback encode ("hi hello") := by
    simp [detectRelevance, h1, h2]
  refine ⟨h1, h2, hfb, ?_, ?_⟩
  · rw [hfb]; exact relevanceFallback_ge_LOW _ _
  · rw [hfb]
    rcases relevanceFallback_cases encode ("hi hello") with h | h | h <;>
      rw [h] <;> norm_num [HIGH, MEDIUM, LOW, IGNORE]

/-! ### Category detection (claim C9) -/

theorem foldl_firstMax (xs : List (String × ℕ)) (x : String × ℕ) :
    ∃ w, xs.foldl (fun best y => if best.2 < y.2 then y else best) x = w
      ∧ ((w = x ∧ ∀ y ∈ xs, y.2 ≤ x.2)
        ∨ (∃ l1 l2, xs = l1 ++ w :: l2 ∧ x.2 < w.2
            ∧ (∀ y ∈ l1, y.2 < w.2) ∧ (∀ y ∈ l2, y.2 ≤ w.2))) := by
  induction xs generalizing x with
  | nil => exact ⟨x, rfl, Or.inl ⟨rfl, by simp⟩⟩
  | cons a l ih =>
      by_cases ha : x.2 < a.2
      · obtain ⟨w, hw, hcases⟩ := ih a
        refine ⟨w, by simpa [ha] using hw, Or.inr ?_⟩
        rcases hcases with ⟨rfl, hall⟩ | ⟨l1, l2, rfl, hxw, h1, h2⟩
        · exact ⟨[], l, by simp, ha, by simp, hall⟩
        · refine ⟨a :: l1, l2, by simp, lt_trans ha hxw, ?_, h2⟩
          intro y hy
          rcases List.mem_cons.1 hy with rfl | hy
          · exact hxw
          · exact h1 y hy
      · obtain ⟨w, hw, hcases⟩ := ih x
        refine ⟨w, by simpa [ha] using hw, ?_⟩
        rcases hcases with ⟨rfl, hall⟩ | ⟨l1, l2, rfl, hxw, h1, h2⟩
        · refine Or.inl ⟨rfl, ?_⟩
          intro y hy
          rcases List.mem_cons.1 hy with rfl | hy
          · exact le_of_not_lt ha
          · exact hall y hy
        · refine Or.inr ⟨a :: l1, l2, by simp, hxw, ?_, h2⟩
          intro y hy
          rcases List.mem_cons.1 hy with rfl | hy
          · exact lt_of_le_of_lt (le_of_not_lt ha) hxw
          · exact h1 y hy

theorem argmaxFirst_spec {l : List (String × ℕ)} {w : String × ℕ}
    (h : argmaxFirst l = some w) :
    ∃ f1 f2, l = f1 ++ w :: f2 ∧ (∀ y ∈ f1, y.2 < w.2)
      ∧ (∀ y ∈ f2, y.2 ≤ w.2) := by
  cases l with
  | nil => simp [argmaxFirst] at h
  | cons x xs =>
      obtain ⟨w', hw', hcases⟩ := foldl_firstMax xs x
      have hww : w' = w := by
        simpa [argmaxFirst, hw'] using h
      subst hww
      rcases hcases with ⟨rfl, hall⟩ | ⟨l1, l2, rfl, hxw, h1, h2⟩
      · exact ⟨[], xs, by simp, by simp, hall⟩
      · refine ⟨x :: l1, l2, by simp, ?_, h2⟩
        intro y hy
        rcases List.mem_cons.1 hy with rfl | hy
        · exact hxw
        · exact h1 y hy

theorem filter_split {α : Type} {p : α → Bool} {l f1 f2 : List α} {w : α}
    (h : l.filter p = f1 ++ w :: f2) :
    ∃ c1 c2, l = c1 ++ w :: c2 ∧ c1.filter p = f1 ∧ c2.filter p = f2 := by
  induction l generalizing f1 with
  | nil => simp at h
  | cons a l ih =>
      by_cases hp : p a
      · rw [List.filter_cons_of_pos hp] at h
        cases f1 with
        | nil =>
            rw [List.nil_append] at h
            obtain ⟨rfl, hf⟩ : a = w ∧ l.filter p = f2 := by
              constructor
              · exact (List.cons.injEq _ _ _ _ ▸ h).1
              · exact (List.cons.injEq _ _ _ _ ▸ h).2
            exact ⟨[], l, rfl, rfl, hf⟩
        | cons b f1' =>
            rw [List.cons_append] at h
            have hab : a = b := (List.cons.injEq _ _ _ _ ▸ h).1
            have htl : l.filter p = f1' ++ w :: f2 :=
              (List.cons.injEq _ _ _ _ ▸ h).2
            obtain ⟨c1, c2, rfl, hc1, hc2⟩ := ih htl
            exact ⟨a :: c1, c2, rfl,
              by rw [List.filter_cons_of_pos hp, hc1, hab], hc2⟩
      · rw [List.filter_cons_of_neg hp] at h
        obtain ⟨c1, c2, rfl, hc1, hc2⟩ := ih h
        exact ⟨a :: c1, c2, rfl, by rw [List.filter_cons_of_neg hp, hc1], hc2⟩

/-- C9: category detection lowercases the joined text, counts each
category's pattern hits in the fixed order (preferences, personal, health,
skills, facts), and returns the category with the most hits; with no hit at
all it returns "general", and the winner's position in the counts list has
strictly fewer hits before it (so equal counts resolve to the earlier
category) and no more hits after it. -/
theorem detect_category_spec (contentList : List String) :
    ((∀ cp ∈ categoryCounts contentList, cp.2 = 0) →
        detectCategory contentList = "general")
    ∧ (∀ cp ∈ categoryCounts contentList, 0 < cp.2 →
        ∃ l1 w l2, categoryCounts contentList = l1 ++ w :: l2
          ∧ detectCategory contentList = w.1 ∧ 0 < w.2
          ∧ (∀ y ∈ l1, y.2 < w.2) ∧ (∀ y ∈ l2, y.2 ≤ w.2)) := by
  constructor
  · intro hall
    have hfil : (categoryCounts contentList).filter (fun cp => 0 < cp.2) = [] := by
      rw [List.filter_eq_nil_iff]
      intro cp hcp
      simp [hall cp hcp]
    simp [detectCategory, hfil, argmaxFirst]
  · intro cp hcp hpos
    have hmem : cp ∈ (categoryCounts contentList).filter (fun cp => 0 < cp.2) :=
      List.mem_filter.2 ⟨hcp, by simpa using hpos⟩
    obtain ⟨x, xs, hfil⟩ :
        ∃ x xs, (categoryCounts contentList).filter (fun cp => 0 < cp.2) = x :: xs := by
      cases hfl : (categoryCounts contentList).filter (fun cp => 0 < cp.2) with
      | nil => rw [hfl] at hmem; simp at hmem
      | cons x xs => exact ⟨x, xs, rfl⟩
    obtain ⟨w', hw', _⟩ := foldl_firstMax xs x
    have hmax : argmaxFirst ((categoryCounts contentList).filter (fun cp => 0 < cp.2))
        = some w' := by
      simp [hfil, argmaxFirst, hw']
    obtain ⟨f1, f2, hsplit, hf1, hf2⟩ := argmaxFirst_spec hmax
    have hwpos : 0 < w'.2 := by
      have : w' ∈ (categoryCounts contentList).filter (fun cp => 0 < cp.2) := by
        rw [hsplit]
        exact List.mem_append.2 (Or.inr (List.mem_cons_self _ _))
      simpa using (List.mem_filter.1 this).2
    obtain ⟨c1, c2, hc, hc1, hc2⟩ := filter_split hsplit
    refine ⟨c1, w', c2, hc, by simp [detectCategory, hmax], hwpos, ?_, ?_⟩
    · intro y hy
      by_cases hyp : 0 < y.2
      · have : y ∈ f1 := hc1 ▸ List.mem_filter.2 ⟨hy, by simpa using hyp⟩
        exact hf1 y this
      · omega
    · intro y hy
      by_cases hyp : 0 < y.2
      · have : y ∈ f2 := hc2 ▸ List.mem_filter.2 ⟨hy, by simpa using hyp⟩
        exact hf2 y this
      · omega

/-- Witness for C9 at concrete inputs: "I prefer tea" wins `preferences`;
text with no pattern hit yields `general`. -/
theorem detect_category_spec_witness :
    (("preferences", 1) ∈ categoryCounts ["I prefer tea"] ∧ 0 < 1)
    ∧ (∃ l1 w l2, categoryCounts ["I prefer tea"] = l1 ++ w :: l2
        ∧ detectCategory ["I prefer tea"] = w.1 ∧ 0 < w.2
        ∧ (∀ y ∈ l1, y.2 < w.2) ∧ (∀ y ∈ l2, y.2 ≤ w.2))
    ∧ detectCategory ["zzz qqq"] = "general"
    ∧ detectCategory ["I prefer tea"] = "preferences" :=
  ⟨⟨by decide, by decide⟩,
   (detect_category_spec ["I prefer tea"]).2 ("preferences", 1) (by decide) (by decide),
   (detect_category_spec ["zzz qqq"]).1 (by decide),
   by decide⟩

/-! ### Session consolidation (claims C3, C8) -/

theorem le_foldl_max (rs : List ℚ) : ∀ r : ℚ, r ≤ rs.foldl max r := by
  induction rs with
  | nil => intro r; exact le_refl r
  | cons a l ih => intro r; exact le_trans (le_max_left r a) (ih (max r a))

theorem mem_le_foldl_max (rs : List ℚ) : ∀ (r x : ℚ), x ∈ rs → x ≤ rs.foldl max r := by
  induction rs with
  | nil => intro r x hx; simp at hx
  | cons a l ih =>
      intro r x hx
      rcases List.mem_cons.1 hx with rfl | hx
      · exact le_trans (le_max_right r x) (le_foldl_max l (max r x))
      · exact ih (max r a) x hx

theorem foldl_max_cases (rs : List ℚ) : ∀ r : ℚ,
    rs.foldl max r = r ∨ rs.foldl max r ∈ rs := by
  induction rs with
  | nil => intro r; exact Or.inl rfl
  | cons a l ih =>
      intro r
      rw [List.foldl_cons]
      rcases ih (max r a) with heq | hmem
      · rcases max_choice r a with hra | hra
        · exact Or.inl (by rw [heq, hra])
        · exact Or.inr (by rw [heq, hra]; exact List.mem_cons_self a l)
      · exact Or.inr (List.mem_cons_of_mem a hmem)

theorem maxRelOver_mem_le (ias : List Interaction) (idxs : List ℕ) (j : ℕ)
    (hj : j ∈ idxs) : (ias.getD j dIa).relevance ≤ maxRelOver ias idxs := by
  unfold maxRelOver
  cases idxs with
  | nil => simp at hj
  | cons k ks =>
      simp only [List.map_cons]
      rcases List.mem_cons.1 hj with rfl | hj
      · exact le_foldl_max _ _
      · exact mem_le_foldl_max _ _ _
          (List.mem_map.2 ⟨j, hj, rfl⟩)

theorem maxRelOver_attained (ias : List Interaction) (idxs : List ℕ)
    (h : idxs ≠ []) :
    ∃ j ∈ idxs, maxRelOver ias idxs = (ias.getD j dIa).relevance := by
  unfold maxRelOver
  cases idxs with
  | nil => exact absurd rfl h
  | cons k ks =>
      simp only [List.map_cons]
      rcases foldl_max_cases (ks.map (fun j => (ias.getD j dIa).relevance))
          ((ias.getD k dIa).relevance) with heq | hmem
      · exact ⟨k, List.mem_cons_self k ks, heq⟩
      · obtain ⟨j, hj, hje⟩ := List.mem_map.1 hmem
        exact ⟨j, List.mem_cons_of_mem k hj, hje.symm⟩

theorem mem_clusterOf_self (encode : String → List ℚ) (ias : List Interaction)
    (processed : List ℕ) (i : ℕ) (hi : i < ias.length) :
    i ∈ clusterOf encode ias processed i := by
  unfold clusterOf
  refine List.mem_filter.2 ⟨List.mem_range.2 hi, ?_⟩
  simp

theorem clusterOf_lt_length (encode : String → List ℚ) (ias : List Interaction)
    (processed : List ℕ) (i : ℕ) :
    ∀ j ∈ clusterOf encode ias processed i, j < ias.length := by
  intro j hj
  exact List.mem_range.1 (List.mem_filter.1 hj).1

/-- The invariant that the clustering loop maintains on every emitted
cluster: its index set is nonempty and in range, it contains a seed whose
relevance strictly exceeds LOW, and the recorded relevance is the maximum of
the members' relevances. -/
theorem combineRelated_invariant (encode : String → List ℚ)
    (ias : List Interaction) :
    ∀ spec ∈ combineRelated encode ias,
      spec.source_indices ≠ []
      ∧ (∀ j ∈ spec.source_indices, j < ias.length)
      ∧ (∃ i ∈ spec.source_indices, LOW < (ias.getD i dIa).relevance)
      ∧ spec.relevance = maxRelOver ias spec.source_indices := by
  have main : ∀ (idxs : List ℕ), (∀ i ∈ idxs, i < ias.length) →
      ∀ acc : List MemSpec × List ℕ,
      (∀ spec ∈ acc.1,
        spec.source_indices ≠ []
        ∧ (∀ j ∈ spec.source_indices, j < ias.length)
        ∧ (∃ i ∈ spec.source_indices, LOW < (ias.getD i dIa).relevance)
        ∧ spec.relevance = maxRelOver ias spec.source_indices) →
      ∀ spec ∈ (idxs.foldl (combineStep encode ias) acc).1,
        spec.source_indices ≠ []
        ∧ (∀ j ∈ spec.source_indices, j < ias.length)
        ∧ (∃ i ∈ spec.source_indices, LOW < (ias.getD i dIa).relevance)
        ∧ spec.relevance = maxRelOver ias spec.source_indices := by
    intro idxs
    induction idxs with
    | nil => intro _ acc hacc; exact hacc
    | cons i idxs ih =>
        intro hlt acc hacc
        refine ih (fun j hj => hlt j (List.mem_cons_of_mem i hj))
          (combineStep encode ias acc i) ?_
        intro spec hspec
        unfold combineStep at hspec
        by_cases hc : acc.2.contains i
        · rw [if_pos hc] at hspec
          exact hacc spec hspec
        · rw [if_neg hc] at hspec
          by_cases hrel : (ias.getD i dIa).relevance ≤ LOW
          · rw [if_pos hrel] at hspec
            exact hacc spec hspec
          · rw [if_neg hrel] at hspec
            rcases List.mem_append.1 hspec with hold | hnew
            · exact hacc spec hold
            · have hi : i < ias.length := hlt i (List.mem_cons_self i idxs)
              have hseed := mem_clusterOf_self encode ias acc.2 i hi
              rcases List.mem_cons.1 hnew with rfl | hctr
              · refine ⟨List.ne_nil_of_mem hseed,
                  clusterOf_lt_length encode ias acc.2 i,
                  ⟨i, hseed, lt_of_not_le hrel⟩, rfl⟩
              · simp at hctr
  intro spec hspec
  exact main (List.range ias.length) (fun i hi => List.mem_range.1 hi)
    ([], []) (by simp) spec hspec

/-- C3 (amended part): an interaction with relevance ≤ LOW never seeds a
cluster — every consolidated memory contains a member whose relevance
strictly exceeds LOW, and its recorded relevance (the member maximum) also
strictly exceeds LOW.  (Such an interaction can still *join* another seed's
cluster — see the counterexample.) -/
theorem low_relevance_never_seeds (encode : String → List ℚ)
    (ias : List Interaction) :
    ∀ spec ∈ combineRelated encode ias,
      (∃ i ∈ spec.source_indices, LOW < (ias.getD i dIa).relevance)
      ∧ LOW < spec.relevance := by
  intro spec hspec
  obtain ⟨_, _, ⟨i, hi, hrel⟩, hmax⟩ := combineRelated_invariant encode ias spec hspec
  refine ⟨⟨i, hi, hrel⟩, ?_⟩
  rw [hmax]
  exact lt_of_lt_of_le hrel (maxRelOver_mem_le ias spec.source_indices i hi)

unseal Rat.add Rat.mul Rat.sub Rat.inv Rat.ofScientific in
/-- C3 counterexample: with a constant embedding model (every pair of texts
has cosine similarity 1 > 0.8) and two interactions of relevance 0.5 and 0.2
(= LOW), the 0.5-seeded cluster absorbs the LOW interaction: the emitted
memory's `source_indices` is `[0, 1]`, so an interaction with
relevance ≤ LOW does end up in a consolidated memory, contradicting the
claim that it is excluded from clustering entirely (the inner `for j` loop
checks `processed_indices` but never the candidate's relevance). -/
theorem low_relevance_joins_counterexample :
    (combineRelated (fun _ => [1])
        [⟨0, 1 / 2, "a", "b", []⟩, ⟨0, 1 / 5, "c", "d", []⟩]).map
        MemSpec.source_indices = [[0, 1]]
    ∧ (([⟨0, 1 / 2, "a", "b", []⟩, ⟨0, 1 / 5, "c", "d", []⟩] :
          List Interaction).getD 1 dIa).relevance ≤ LOW := by
  exact ⟨by decide, by decide⟩

unseal Rat.add Rat.mul Rat.sub Rat.inv Rat.ofScientific in
/-- Witness for C3's amended theorem at a concrete input. -/
theorem low_relevance_never_seeds_witness :
    (∃ i ∈ MemSpec.source_indices
        ⟨"User: a\nAssistant: b", "general", 1 / 2, [0]⟩,
      LOW < (([⟨0, 1 / 2, "a", "b", []⟩] : List Interaction).getD i dIa).relevance)
    ∧ LOW < MemSpec.relevance ⟨"User: a\nAssistant: b", "general", 1 / 2, [0]⟩ :=
  low_relevance_never_seeds (fun _ => [1]) [⟨0, 1 / 2, "a", "b", []⟩]
    ⟨"User: a\nAssistant: b", "general", 1 / 2, [0]⟩ (by decide)

theorem getD_mem {l : List Interaction} {j : ℕ} (h : j < l.length) :
    l.getD j dIa ∈ l := by
  rw [List.getD_eq_getElem l dIa h]
  exact List.getElem_mem h

/-- C8: every memory produced by session-end consolidation is stored with
`confidence = min(1, m + 0.2)` where `m` is the maximum relevance among the
cluster's member interactions (an attained maximum); assuming every
interaction's relevance is at most 1 — the Relevance scale is bounded by
CRITICAL = 1.0 — the confidence lies in [0,1], is capped at 1.0, and is
never below any member's relevance. -/
theorem consolidation_confidence (encode : String → List ℚ)
    (ias : List Interaction) (hle : ∀ ia ∈ ias, ia.relevance ≤ 1) :
    ∀ sm ∈ processSessionContext encode ias,
      sm.confidence
          = min 1 (maxRelOver (List.insertionSort iaGE ias) sm.source_indices + 1 / 5)
      ∧ (∃ j ∈ sm.source_indices,
          maxRelOver (List.insertionSort iaGE ias) sm.source_indices
            = ((List.insertionSort iaGE ias).getD j dIa).relevance)
      ∧ (∀ j ∈ sm.source_indices,
          ((List.insertionSort iaGE ias).getD j dIa).relevance ≤ sm.confidence)
      ∧ 0 ≤ sm.confidence ∧ sm.confidence ≤ 1 := by
  intro sm hsm
  unfold processSessionContext at hsm
  obtain ⟨spec, hspec, rfl⟩ := List.mem_map.1 hsm
  obtain ⟨hne, hlt, ⟨i, hi, hseed⟩, hmax⟩ :=
    combineRelated_invariant encode (List.insertionSort iaGE ias) spec hspec
  have hmaxseed : LOW < maxRelOver (List.insertionSort iaGE ias) spec.source_indices :=
    lt_of_lt_of_le hseed (maxRelOver_mem_le _ _ i hi)
  refine ⟨by rw [show spec.relevance = _ from hmax], maxRelOver_attained _ _ hne, ?_, ?_, min_le_left _ _⟩
  · intro j hj
    refine le_min ?_ ?_
    · exact hle _ ((List.perm_insertionSort iaGE ias).subset (getD_mem (hlt j hj)))
    · have h1 : ((List.insertionSort iaGE ias).getD j dIa).relevance ≤
          maxRelOver (List.insertionSort iaGE ias) spec.source_indices :=
        maxRelOver_mem_le _ _ j hj
      rw [← hmax] at h1
      have : (0 : ℚ) < 1 / 5 := by norm_num
      calc ((List.insertionSort iaGE ias).getD j dIa).relevance
          ≤ spec.relevance := h1
        _ ≤ spec.relevance + 1 / 5 := by linarith
  · refine le_min (by norm_num) ?_
    rw [show spec.relevance = _ from hmax]
    have : (0 : ℚ) < LOW := by norm_num [LOW]
    linarith

unseal Rat.add Rat.mul Rat.sub Rat.inv Rat.ofScientific in
/-- Witness for C8 at a concrete input: the single 0.5-relevance interaction
`iaDog` consolidates into `smDog` with confidence `min 1 (0.5 + 0.2) = 0.7`. -/
theorem consolidation_confidence_witness :
    (smDog.confidence
        = min 1 (maxRelOver (List.insertionSort iaGE [iaDog]) smDog.source_indices + 1 / 5)
      ∧ (∃ j ∈ smDog.source_indices,
          maxRelOver (List.insertionSort iaGE [iaDog]) smDog.source_indices
            = ((List.insertionSort iaGE [iaDog]).getD j dIa).relevance)
      ∧ (∀ j ∈ smDog.source_indices,
          ((List.insertionSort iaGE [iaDog]).getD j dIa).relevance ≤ smDog.confidence)
      ∧ 0 ≤ smDog.confidence ∧ smDog.confidence ≤ 1)
    ∧ processSessionContext (fun _ => [1]) [iaDog] = [smDog]
    ∧ smDog.confidence = 7 / 10 :=
  ⟨consolidation_confidence (fun _ => [1]) [iaDog] (by decide) smDog (by decide),
   by decide, by decide⟩

/-! ### Store error handling (claims C6, C7) -/

theorem batchInsertFrom_lengths (encode : String → Option (List ℚ)) (now : ℚ) :
    ∀ (specs : List BatchSpec) (nextId : ℕ) (rows : List Memory) (ids : List ℕ),
      batchInsertFrom encode now nextId specs = some (rows, ids) →
      rows.length = specs.length ∧ ids.length = specs.length := by
  intro specs
  induction specs with
  | nil =>
      intro nextId rows ids h
      unfold batchInsertFrom at h
      obtain ⟨rfl, rfl⟩ : ([] : List Memory) = rows ∧ ([] : List ℕ) = ids := by
        have := Option.some.inj h
        exact ⟨congrArg Prod.fst this, congrArg Prod.snd this⟩
      exact ⟨rfl, rfl⟩
  | cons spec rest ih =>
      intro nextId rows ids h
      unfold batchInsertFrom at h
      cases he : encode spec.content with
      | none => rw [he] at h; exact absurd h (by simp)
      | some emb =>
          rw [he] at h
          cases hr : batchInsertFrom encode now (nextId + 1) rest with
          | none => rw [hr] at h; exact absurd h (by simp)
          | some p =>
              obtain ⟨rows', ids'⟩ := p
              rw [hr] at h
              have hpair := Option.some.inj h
              have hrows := congrArg Prod.fst hpair
              have hids := congrArg Prod.snd hpair
              dsimp only at hrows hids
              obtain ⟨h1, h2⟩ := ih (nextId + 1) rows' ids' hr
              constructor
              · rw [← hrows]; simpa using h1
              · rw [← hids]; simpa using h2

/-- C6 amended: `batch_store_memories` is transactional over the *whole*
batch, not per item: all inserts share one connection and the commit happens
only after the loop finishes, so either every item succeeds (all ids are
returned, one per item, and exactly that many rows are appended) or the
exception propagates, the connection closes without commit, sqlite rolls the
transaction back, and the store is unchanged with no ids returned at all. -/
theorem batch_store_all_or_nothing (encode : String → Option (List ℚ))
    (db : MemoryDB) (specs : List BatchSpec) (now : ℚ) :
    ((batchStoreMemories encode db specs now).2 = none
        ∧ (batchStoreMemories encode db specs now).1 = db)
    ∨ (∃ ids, (batchStoreMemories encode db specs now).2 = some ids
        ∧ ids.length = specs.length
        ∧ (batchStoreMemories encode db specs now).1.rows.length
            = db.rows.length + specs.length) := by
  unfold batchStoreMemories
  cases hb : batchInsertFrom encode now db.nextId specs with
  | none => exact Or.inl ⟨rfl, rfl⟩
  | some p =>
      obtain ⟨rows, ids⟩ := p
      obtain ⟨h1, h2⟩ := batchInsertFrom_lengths encode now specs db.nextId rows ids hb
      exact Or.inr ⟨ids, rfl, h2, by simpa using h1⟩

unseal Rat.add Rat.mul Rat.sub Rat.inv Rat.ofScientific in
/-- C6 counterexample: a batch of two items where the model fails on the
second.  The claim says item 0 remains persisted and the caller can discover
its id; in fact the whole transaction is rolled back (the store is
unchanged) and no ids are returned — even though item 0 on its own would
succeed with id 1. -/
theorem batch_store_rollback_counterexample :
    batchStoreMemories (fun s => if s == "bad" then none else some [1]) ⟨[], 1⟩
        [⟨"good", none, [], none⟩, ⟨"bad", none, [], none⟩] 0
      = (⟨[], 1⟩, none)
    ∧ (batchStoreMemories (fun s => if s == "bad" then none else some [1]) ⟨[], 1⟩
        [⟨"good", none, [], none⟩] 0).2 = some [1] := by
  exact ⟨by decide, by decide⟩

/-- C7 amended: `store_memory` performs no content validation and defines no
`EncodingError`: it fails exactly when the embedding model itself raises
(and that failure is surfaced to the caller with nothing stored — not
swallowed), and whenever the model returns a vector for the empty string, a
Memory with empty content is persisted. -/
theorem store_empty_content_amended (encode : String → Option (List ℚ))
    (db : MemoryDB) (category : String) (md : List (String × String))
    (conf now : ℚ) :
    (∀ emb, encode "" = some emb →
        (storeMemory encode db "" category md conf now).2 = some db.nextId
        ∧ ((storeMemory encode db "" category md conf now).1.rows.map
            Memory.content) = db.rows.map Memory.content ++ [""])
    ∧ (encode "" = none →
        storeMemory encode db "" category md conf now = (db, none)) := by
  constructor
  · intro emb h
    unfold storeMemory
    rw [h]
    exact ⟨rfl, by simp⟩
  · intro h
    unfold storeMemory
    rw [h]

unseal Rat.add Rat.mul Rat.sub Rat.inv Rat.ofScientific in
/-- C7 counterexample: the real model (`all-MiniLM-L6-v2`) encodes the empty
string without raising, and nothing in the repository defines or raises an
`EncodingError`; with such a model, `store_memory("")` succeeds and the
store then contains a Memory whose content is empty — both halves of the
claim fail. -/
theorem store_empty_content_counterexample :
    (storeMemory (fun _ => some [1]) ⟨[], 1⟩ "" "general" [] 1 0).2 = some 1
    ∧ ((storeMemory (fun _ => some [1]) ⟨[], 1⟩ "" "general" [] 1 0).1.rows.map
        Memory.content) = [""] := by
  exact ⟨by decide, by decide⟩

unseal Rat.add Rat.mul Rat.sub Rat.inv Rat.ofScientific in
/-- Witness for C7's amended theorem, applied with a model that accepts the
empty string and with one that raises on it. -/
theorem store_empty_content_amended_witness :
    ((storeMemory (fun _ => some [1]) ⟨[], 5⟩ "" "general" [] 1 0).2 = some 5
      ∧ ((storeMemory (fun _ => some [1]) ⟨[], 5⟩ "" "general" [] 1 0).1.rows.map
          Memory.content)
        = (MemoryDB.mk [] 5).rows.map Memory.content ++ [""])
    ∧ storeMemory (fun _ => none) ⟨[], 5⟩ "" "general" [] 1 0 = (⟨[], 5⟩, none) :=
  ⟨(store_empty_content_amended (fun _ => some [1]) ⟨[], 5⟩ "general" [] 1 0).1
      [1] rfl,
   (store_empty_content_amended (fun _ => none) ⟨[], 5⟩ "general" [] 1 0).2 rfl⟩

end AiHelper
